import Mathlib

/-!
# Verification of the voter-list search tool (`src/voter_id.py`)

Shallow embedding of the data model and operations of the search script:
smart (multi-keyword substring) search, fuzzy (token-sort-ratio) search,
the transliteration client, table loading/concatenation, and CSV export.

Python strings are embedded as Lean `String`/`List Char`; pandas tables as
lists of rows of optional text cells (`none` = missing value / NaN); the
transliteration HTTP exchange as an explicit response datum; byte streams
as `List Nat` (one entry per byte).
-/

namespace VoterId

/-! ## Text utilities -/

/-- Python `str.split()` (no argument): split on runs of whitespace, dropping
empty pieces.  `acc` accumulates the current word in reverse. -/
def splitWsAux (acc : List Char) : List Char → List (List Char)
  | [] => if acc.isEmpty then [] else [acc.reverse]
  | c :: cs =>
    if c.isWhitespace then
      if acc.isEmpty then splitWsAux [] cs
      else acc.reverse :: splitWsAux [] cs
    else splitWsAux (c :: acc) cs

/-- `term.split()` from the source: the whitespace-delimited keywords of a
query variation, as character lists. -/
def pySplit (s : String) : List (List Char) := splitWsAux [] s.data

/-- The case-folded view of a string (model of Python's case folding used by
`str.contains(..., case=False)`). -/
def lowerStr (s : String) : List Char := s.data.map Char.toLower

/-- Case-insensitive literal substring test: model of
`search_series.str.contains(keyword, na=False, case=False, regex=False)`
applied to one entry.  The keyword is matched as a literal substring, with
both sides case-folded; no regex interpretation. -/
def containsCI (hay : String) (kw : List Char) : Bool :=
  decide ((kw.map Char.toLower) <:+: lowerStr hay)

/-- `term_mask` from the source: start from an all-`True` mask and AND in the
containment mask of each whitespace-delimited keyword of `term`. -/
def term_mask (series : List String) (term : String) : List Bool :=
  (pySplit term).foldl
    (fun m kw => m.zipWith (· && ·) (series.map (fun s => containsCI s kw)))
    (series.map (fun _ => true))

/-- `final_mask` from the source: start from an all-`False` mask and OR in the
`term_mask` of each search variation. -/
def final_mask (series : List String) (variations : List String) : List Bool :=
  variations.foldl
    (fun m t => m.zipWith (· || ·) (term_mask series t))
    (series.map (fun _ => false))

/-- `df[mask]`: keep the rows whose mask entry is `true`, in order. -/
def maskFilter {α : Type} : List α → List Bool → List α
  | [], _ => []
  | _, [] => []
  | x :: xs, b :: bs => if b then x :: maskFilter xs bs else maskFilter xs bs

/-- Declarative reading of one variation's match: every keyword of the
variation occurs in the row text as a case-insensitive literal substring. -/
def matchesVariation (rowText : String) (term : String) : Bool :=
  (pySplit term).all (containsCI rowText)

/-- Declarative reading of the whole query: some variation matches. -/
def matchesQuery (rowText : String) (variations : List String) : Bool :=
  variations.any (matchesVariation rowText)

/-! ## Smart-search mask lemmas -/

theorem foldl_zipWith_map {γ : Type} (op : Bool → Bool → Bool)
    (g : γ → String → Bool) (ks : List γ) (series : List String)
    (f : String → Bool) :
    ks.foldl (fun m kw => m.zipWith op (series.map (g kw))) (series.map f)
      = series.map (fun s => ks.foldl (fun b kw => op b (g kw s)) (f s)) := by
  induction ks generalizing f with
  | nil => rfl
  | cons k ks ih =>
    simp only [List.foldl_cons]
    rw [List.zipWith_map op f (g k) series series, List.zipWith_same]
    exact ih _

theorem foldl_and_eq_all (p : α → Bool) (l : List α) (b : Bool) :
    l.foldl (fun acc x => acc && p x) b = (b && l.all p) := by
  induction l generalizing b with
  | nil => simp
  | cons x xs ih => simp [ih, Bool.and_assoc]

theorem foldl_or_eq_any (p : α → Bool) (l : List α) (b : Bool) :
    l.foldl (fun acc x => acc || p x) b = (b || l.any p) := by
  induction l generalizing b with
  | nil => simp
  | cons x xs ih => simp [ih, Bool.or_assoc]

theorem term_mask_eq_map (series : List String) (term : String) :
    term_mask series term = series.map (fun s => matchesVariation s term) := by
  unfold term_mask
  rw [foldl_zipWith_map (· && ·) (fun kw s => containsCI s kw) (pySplit term) series
    (fun _ => true)]
  refine List.map_congr_left (fun s _ => ?_)
  rw [foldl_and_eq_all (containsCI s) (pySplit term) true, Bool.true_and]
  rfl

theorem final_mask_eq_map (series : List String) (variations : List String) :
    final_mask series variations
      = series.map (fun s => matchesQuery s variations) := by
  unfold final_mask
  simp only [term_mask_eq_map]
  rw [foldl_zipWith_map (· || ·) (fun t s => matchesVariation s t) variations series
    (fun _ => false)]
  refine List.map_congr_left (fun s _ => ?_)
  rw [foldl_or_eq_any (matchesVariation s) variations false, Bool.false_or]
  rfl

theorem maskFilter_map {α : Type} (rows : List α) (q : α → Bool) :
    maskFilter rows (rows.map q) = rows.filter q := by
  induction rows with
  | nil => rfl
  | cons x xs ih =>
    simp only [List.map_cons, maskFilter, List.filter_cons]
    by_cases h : q x <;> simp [h, ih]

/-! ## Table model

A pandas DataFrame loaded with `dtype=str`: named columns, rows of optional
text cells (`none` embeds a missing value / NaN). -/

structure Table where
  cols : List String
  rows : List (List (Option String))
deriving DecidableEq

/-- The column selector of the UI: the all-columns sentinel or one column. -/
inductive ColSel where
  | all : ColSel
  | col : String → ColSel

/-- `str(cell)` under pandas `astype(str)`: a present cell is its text, a
missing cell (NaN) renders as the string `"nan"`. -/
def cellStr : Option String → String
  | some s => s
  | none => "nan"

/-- `' '.join(cells)`. -/
def joinSpace (l : List String) : String := String.intercalate " " l

/-- `df[c]` for one row: the value under the first column named `c`, `none`
when the column is absent from `cols`. -/
def colValue (cols : List String) (row : List (Option String)) (c : String) :
    Option String :=
  match (cols.zip row).find? (fun p => p.1 == c) with
  | some p => p.2
  | none => none

/-- The searchable text of one row under a column selector: all-columns mode
joins every cell's `astype(str)` text with single spaces
(`df.astype(str).agg(' '.join, axis=1)`); single-column mode uses that
column's text (`df[search_column].astype(str)`). -/
def searchText (t : Table) (sel : ColSel) (row : List (Option String)) : String :=
  match sel with
  | .all => joinSpace (row.map cellStr)
  | .col c => cellStr (colValue t.cols row c)

/-- `search_series` from the source: the per-row searchable text. -/
def search_series (t : Table) (sel : ColSel) : List String :=
  t.rows.map (searchText t sel)

/-- The smart-search core of the source, over an explicit variation list:
`results = df[final_mask]` with the OR-of-ANDs mask. -/
def smart_search (t : Table) (sel : ColSel) (variations : List String) :
    List (List (Option String)) :=
  maskFilter t.rows (final_mask (search_series t sel) variations)

theorem smart_search_eq_filter (t : Table) (sel : ColSel)
    (variations : List String) :
    smart_search t sel variations
      = t.rows.filter (fun r => matchesQuery (searchText t sel r) variations) := by
  unfold smart_search search_series
  rw [final_mask_eq_map, List.map_map, maskFilter_map]
  rfl

theorem matchesQuery_iff (s : String) (variations : List String) :
    matchesQuery s variations = true
      ↔ ∃ v ∈ variations, ∀ kw ∈ pySplit v,
          (kw.map Char.toLower) <:+: lowerStr s := by
  unfold matchesQuery matchesVariation containsCI
  simp only [List.any_eq_true, List.all_eq_true, decide_eq_true_eq]

/-- **C1.** Smart-search semantics: for every table, column selector and list
of query variations, the smart-mode result equals the filter of the table's
rows by "some variation has all of its whitespace-delimited keywords in the
row's searchable text as case-insensitive literal substrings" (AND across
keywords, OR across variations, literal matching only); hence a row is in the
result iff it is a matching table row, and the result lists the matching rows
in original table order (a sublist of the table, no score attached). -/
theorem C1_smart_search_semantics (t : Table) (sel : ColSel)
    (variations : List String) :
    smart_search t sel variations
        = t.rows.filter (fun r => matchesQuery (searchText t sel r) variations)
      ∧ (∀ r, r ∈ smart_search t sel variations ↔
          r ∈ t.rows ∧ ∃ v ∈ variations, ∀ kw ∈ pySplit v,
            (kw.map Char.toLower) <:+: lowerStr (searchText t sel r))
      ∧ (smart_search t sel variations).Sublist t.rows := by
  refine ⟨smart_search_eq_filter t sel variations, fun r => ?_, ?_⟩
  · rw [smart_search_eq_filter, List.mem_filter, matchesQuery_iff]
  · rw [smart_search_eq_filter]
    exact List.filter_sublist _

/-! ## Transliteration client

`transliterate_text` performs one HTTP GET and reacts to the outcome.  The
outcome is embedded as an explicit datum: an exception anywhere in the `try`
block (network error, timeout, JSON parse failure, unexpected response
shape), or an HTTP response carrying a status code and a body.  A parsed body
holds the service status word and, per input token, the token's candidate
list (`item[1]` of each `result[1]` entry, in service-returned order). -/

inductive TransBody where
  | malformed : TransBody
  | parsed : String → List (String × List String) → TransBody

inductive TransResponse where
  | exn : TransResponse
  | http : Nat → TransBody → TransResponse

/-- `itertools.product`: all combinations across the candidate lists, the
leftmost token varying slowest (so the first combination takes every token's
first candidate). -/
def listProd {α : Type} : List (List α) → List (List α)
  | [] => [[]]
  | xs :: rest => xs.flatMap (fun x => (listProd rest).map (x :: ·))

/-- `"".join(combo)`. -/
def joinAll (combo : List String) : String := String.join combo

/-- `list(dict.fromkeys(l))`: deduplicate by exact equality, keeping the
first occurrence of each element, preserving order. -/
def dedupAux {α : Type} [DecidableEq α] (seen : List α) : List α → List α
  | [] => []
  | x :: xs =>
    if x ∈ seen then dedupAux seen xs else x :: dedupAux (x :: seen) xs

def dedupFirst {α : Type} [DecidableEq α] (l : List α) : List α := dedupAux [] l

/-- `transliterate_text` from the source, as a function of the service
outcome: on a 200 response whose body parses with status `"SUCCESS"`, build
the cartesian product of the per-token candidate lists, join each combination
with no separator, deduplicate preserving first-seen order, and return the
first `max_results` entries; in every other case return `[text]`. -/
def transliterate_text (resp : TransResponse) (text : String)
    (max_results : Nat) : List String :=
  match resp with
  | .exn => [text]
  | .http code body =>
    if code = 200 then
      match body with
      | .malformed => [text]
      | .parsed status items =>
        if status = "SUCCESS" then
          let token_suggestions := items.map Prod.snd
          let combinations := listProd token_suggestions
          let transliterated_phrases := combinations.map joinAll
          let unique_phrases := dedupFirst transliterated_phrases
          unique_phrases.take max_results
        else [text]
    else [text]

/-- A response outcome on which the success branch is not taken: an
exception, a non-200 status code, a body that does not parse, or a service
status other than `"SUCCESS"`. -/
def isFailureResp : TransResponse → Bool
  | .http 200 (.parsed "SUCCESS" _) => false
  | _ => true

/-- **C3.** Transliteration graceful degradation: whenever the request fails
in any way (exception — network error, timeout, malformed or unexpected
response shape — or a non-200 code, or a non-`"SUCCESS"` service status),
`transliterate_text` returns exactly `[text]`, the original text unchanged.
The embedding is a total function, so no exception escapes to the caller. -/
theorem C3_transliterate_graceful_degradation (resp : TransResponse)
    (text : String) (max_results : Nat) (h : isFailureResp resp = true) :
    transliterate_text resp text max_results = [text] := by
  match resp with
  | .exn => rfl
  | .http code body =>
    by_cases hc : code = 200
    · subst hc
      match body with
      | .malformed => rfl
      | .parsed status items =>
        by_cases hs : status = "SUCCESS"
        · subst hs; simp [isFailureResp] at h
        · simp [transliterate_text, hs]
    · simp [transliterate_text, hc]

/-- Witness for C3 at the spec's own example: a simulated network failure on
input `"ravi"` yields exactly `["ravi"]`. -/
theorem C3_transliterate_graceful_degradation_witness :
    transliterate_text .exn "ravi" 5 = ["ravi"] :=
  C3_transliterate_graceful_degradation .exn "ravi" 5 (by decide)

/-! ## Cartesian-product and deduplication lemmas (for C4) -/

theorem listProd_ne_nil {α : Type} (ls : List (List α))
    (h : ∀ l ∈ ls, l ≠ []) : listProd ls ≠ [] := by
  induction ls with
  | nil => simp [listProd]
  | cons xs rest ih =>
    have hxs : xs ≠ [] := h xs (List.mem_cons_self _ _)
    have hrest : listProd rest ≠ [] := ih (fun l hl => h l (List.mem_cons_of_mem _ hl))
    match xs, hxs with
    | x :: xs', _ =>
      simp only [listProd, List.flatMap_cons, ne_eq, List.append_eq_nil,
        List.map_eq_nil_iff, not_and]
      intro hm
      exact absurd hm hrest

theorem listProd_head {α : Type} (d : α) (ls : List (List α))
    (h : ∀ l ∈ ls, l ≠ []) :
    (listProd ls).head? = some (ls.map (fun l => l.headD d)) := by
  induction ls with
  | nil => rfl
  | cons xs rest ih =>
    have hxs : xs ≠ [] := h xs (List.mem_cons_self _ _)
    have hrest : (listProd rest).head? =
        some (rest.map (fun l => l.headD d)) :=
      ih (fun l hl => h l (List.mem_cons_of_mem _ hl))
    match xs, hxs with
    | x :: xs', _ =>
      match hp : listProd rest, hrest with
      | p :: ps, hrest =>
        simp only [List.head?_cons, Option.some.injEq] at hrest
        simp [listProd, hp, hrest]

theorem mem_dedupAux {α : Type} [DecidableEq α] (seen : List α) (l : List α)
    (x : α) (hx : x ∈ dedupAux seen l) : x ∈ l ∧ x ∉ seen := by
  induction l generalizing seen with
  | nil => simp [dedupAux] at hx
  | cons y ys ih =>
    by_cases hy : y ∈ seen
    · simp only [dedupAux, if_pos hy] at hx
      obtain ⟨h1, h2⟩ := ih seen hx
      exact ⟨List.mem_cons_of_mem _ h1, h2⟩
    · simp only [dedupAux, if_neg hy] at hx
      rcases List.mem_cons.mp hx with rfl | hx
      · exact ⟨List.mem_cons_self _ _, hy⟩
      · obtain ⟨h1, h2⟩ := ih (y :: seen) hx
        exact ⟨List.mem_cons_of_mem _ h1,
          fun hs => h2 (List.mem_cons_of_mem _ hs)⟩

theorem dedupAux_nodup {α : Type} [DecidableEq α] (seen : List α)
    (l : List α) : (dedupAux seen l).Nodup := by
  induction l generalizing seen with
  | nil => simp [dedupAux]
  | cons y ys ih =>
    by_cases hy : y ∈ seen
    · simpa [dedupAux, hy] using ih seen
    · simp only [dedupAux, if_neg hy, List.nodup_cons]
      refine ⟨fun hmem => ?_, ih (y :: seen)⟩
      exact (mem_dedupAux _ _ _ hmem).2 (List.mem_cons_self _ _)

theorem dedupFirst_nodup {α : Type} [DecidableEq α] (l : List α) :
    (dedupFirst l).Nodup := dedupAux_nodup [] l

theorem dedupFirst_cons {α : Type} [DecidableEq α] (x : α) (xs : List α) :
    dedupFirst (x :: xs) = x :: dedupAux [x] xs := by
  simp [dedupFirst, dedupAux]

/-- **C4 counterexample.** The claim asserts the output is always non-empty,
but when the service returns an empty candidate list for a token the
cartesian product is empty and `transliterate_text` returns the empty list
(not `[text]`, since the success branch returns unconditionally). -/
theorem C4_counterexample :
    transliterate_text (.http 200 (.parsed "SUCCESS" [("ravi", [])]))
      "ravi" 5 = [] := by
  rfl

/-- **C4 (amended).** Transliteration output construction, for a successful
response in which `max_results ≥ 1` and every token's candidate list is
non-empty: the output is the first-seen-order deduplication of the joined
cartesian-product combinations, truncated to `max_results`; it is non-empty,
of length at most `max_results`, contains no duplicates, and its first entry
is the all-first-choice phrase (each token's first candidate joined with no
separator). -/
theorem C4_transliterate_output_construction
    (items : List (String × List String)) (text : String) (max_results : Nat)
    (hmax : 1 ≤ max_results) (hne : ∀ p ∈ items, p.2 ≠ ([] : List String)) :
    transliterate_text (.http 200 (.parsed "SUCCESS" items)) text max_results
        = (dedupFirst ((listProd (items.map Prod.snd)).map joinAll)).take
            max_results
      ∧ transliterate_text (.http 200 (.parsed "SUCCESS" items)) text
          max_results ≠ []
      ∧ (transliterate_text (.http 200 (.parsed "SUCCESS" items)) text
          max_results).length ≤ max_results
      ∧ (transliterate_text (.http 200 (.parsed "SUCCESS" items)) text
          max_results).Nodup
      ∧ (transliterate_text (.http 200 (.parsed "SUCCESS" items)) text
          max_results).head?
          = some (joinAll (items.map (fun p => p.2.headD ""))) := by
  have hdef : transliterate_text (.http 200 (.parsed "SUCCESS" items)) text
      max_results
      = (dedupFirst ((listProd (items.map Prod.snd)).map joinAll)).take
          max_results := rfl
  have hls : ∀ l ∈ items.map Prod.snd, l ≠ ([] : List String) := by
    intro l hl
    obtain ⟨p, hp, rfl⟩ := List.mem_map.mp hl
    exact hne p hp
  have hprod : listProd (items.map Prod.snd) ≠ [] := listProd_ne_nil _ hls
  have hhead : (listProd (items.map Prod.snd)).head?
      = some ((items.map Prod.snd).map (fun l => l.headD "")) :=
    listProd_head "" _ hls
  match hp : listProd (items.map Prod.snd), hprod, hhead with
  | c :: cs, _, hhead =>
    simp only [List.head?_cons, Option.some.injEq] at hhead
    rw [hdef, hp]
    simp only [List.map_cons, dedupFirst_cons]
    refine ⟨trivial, ?_, ?_, ?_, ?_⟩
    · match max_results, hmax with
      | n + 1, _ => simp
    · simp
    · rw [← dedupFirst_cons]
      exact List.Nodup.sublist (List.take_sublist _ _) (dedupFirst_nodup _)
    · match max_results, hmax with
      | n + 1, _ =>
        simp only [List.take_succ_cons, List.head?_cons, Option.some.injEq,
          hhead, List.map_map]
        rfl

/-- Witness for the amended C4 at a concrete successful response with two
tokens: the output is non-empty, within the bound, duplicate-free, and led
by the all-first-choice phrase. -/
theorem C4_transliterate_output_construction_witness :
    transliterate_text (.http 200 (.parsed "SUCCESS"
        [("ra", ["x", "y"]), ("vi", ["z"])])) "ravi" 5 ≠ []
      ∧ (transliterate_text (.http 200 (.parsed "SUCCESS"
          [("ra", ["x", "y"]), ("vi", ["z"])])) "ravi" 5).length ≤ 5
      ∧ (transliterate_text (.http 200 (.parsed "SUCCESS"
          [("ra", ["x", "y"]), ("vi", ["z"])])) "ravi" 5).Nodup
      ∧ (transliterate_text (.http 200 (.parsed "SUCCESS"
          [("ra", ["x", "y"]), ("vi", ["z"])])) "ravi" 5).head?
          = some "xz" := by
  have h := C4_transliterate_output_construction
    [("ra", ["x", "y"]), ("vi", ["z"])] "ravi" 5 (by decide) (by decide)
  exact ⟨h.2.1, h.2.2.1, h.2.2.2.1, by rw [h.2.2.2.2]; rfl⟩

/-! ## Smart-mode query pipeline -/

/-- `re.search(r'[a-zA-Z]', search_term)`: does the query contain a Latin
alphabetic character? -/
def is_english (s : String) : Bool :=
  s.data.any (fun c => ('a' ≤ c && c ≤ 'z') || ('A' ≤ c && c ≤ 'Z'))

/-- `search_variations` from the source: for a Latin query, transliterate
with `max_results = 5` and use the result when it is truthy (non-empty) and
differs from `[search_term]`; otherwise search the original query alone. -/
def search_variations (query : String) (resp : TransResponse) : List String :=
  if is_english query then
    let transliterated := transliterate_text resp query 5
    if transliterated ≠ [] ∧ transliterated ≠ [query] then transliterated
    else [query]
  else [query]

/-- The full smart-mode search of one query: variation expansion followed by
the OR-of-ANDs mask filter. -/
def smart_search_query (t : Table) (sel : ColSel) (query : String)
    (resp : TransResponse) : List (List (Option String)) :=
  smart_search t sel (search_variations query resp)

theorem search_variations_exn (query : String) :
    search_variations query .exn = [query] := by
  unfold search_variations
  by_cases h : is_english query <;> simp [h, transliterate_text]

/-- **C5 counterexample.** With the transliteration service reachable, the
two queries transliterate to different single keywords (the per-token
candidates are joined with *no* separator), so "Ravi Kumar" finds the row
`"ravikumar"` while "Kumar Ravi" (whose sole variation is `"kumarravi"`)
finds nothing: the result row sets differ. -/
theorem C5_counterexample :
    smart_search_query ⟨["Name"], [[some "ravikumar"]]⟩ (.col "Name")
        "Ravi Kumar"
        (.http 200 (.parsed "SUCCESS" [("Ravi", ["ravi"]), ("Kumar", ["kumar"])]))
        = [[some "ravikumar"]]
      ∧ smart_search_query ⟨["Name"], [[some "ravikumar"]]⟩ (.col "Name")
        "Kumar Ravi"
        (.http 200 (.parsed "SUCCESS" [("Kumar", ["kumar"]), ("Ravi", ["ravi"])]))
        = [] := by
  constructor <;> decide

/-- **C5 (amended).** Keyword order invariance holds at the matching level:
when the two queries have the same keywords up to order (as "Ravi Kumar" and
"Kumar Ravi" do) and transliteration is unavailable — so each query is its
own sole search variation — the smart-mode results are identical.  (With the
service reachable the two queries can transliterate to different
space-free phrases and the result sets can differ; see the counterexample.) -/
theorem C5_keyword_order_invariance (t : Table) (sel : ColSel)
    (q1 q2 : String) (hperm : (pySplit q1).Perm (pySplit q2)) :
    smart_search_query t sel q1 .exn = smart_search_query t sel q2 .exn := by
  unfold smart_search_query
  rw [search_variations_exn, search_variations_exn,
    smart_search_eq_filter, smart_search_eq_filter]
  refine List.filter_congr (fun r _ => ?_)
  simp only [matchesQuery, List.any_cons, List.any_nil, Bool.or_false,
    matchesVariation]
  rw [Bool.eq_iff_iff, List.all_eq_true, List.all_eq_true]
  exact ⟨fun h kw hk => h kw (hperm.mem_iff.mpr hk),
    fun h kw hk => h kw (hperm.mem_iff.mp hk)⟩

/-- Witness for the amended C5: "Ravi Kumar" and "Kumar Ravi" over a concrete
one-row table with the service unreachable. -/
theorem C5_keyword_order_invariance_witness :
    smart_search_query ⟨["Name"], [[some "Kumar Ravi S"]]⟩ (.col "Name")
        "Ravi Kumar" .exn
      = smart_search_query ⟨["Name"], [[some "Kumar Ravi S"]]⟩ (.col "Name")
        "Kumar Ravi" .exn :=
  C5_keyword_order_invariance _ _ "Ravi Kumar" "Kumar Ravi" (by decide)

theorem not_english_of_whitespace (c : Char) (h : c.isWhitespace = true) :
    (('a' ≤ c && c ≤ 'z') || ('A' ≤ c && c ≤ 'Z')) = false := by
  simp only [Char.isWhitespace, Bool.or_eq_true, decide_eq_true_eq] at h
  rcases h with ((h | h) | h) | h <;> subst h <;> decide

theorem splitWsAux_all_ws (l : List Char) (h : ∀ c ∈ l, c.isWhitespace = true) :
    splitWsAux [] l = [] := by
  induction l with
  | nil => rfl
  | cons c cs ih =>
    have hc : c.isWhitespace = true := h c (List.mem_cons_self _ _)
    simp only [splitWsAux, hc, if_true, List.isEmpty_nil]
    exact ih (fun d hd => h d (List.mem_cons_of_mem _ hd))

/-- **C10.** Whitespace-only smart query matches everything: for a non-empty
table and a non-empty query consisting only of whitespace (so it has no
Latin letters and splits into zero keywords), the smart-mode search returns
every row of the table — the per-variation conjunction over an empty keyword
set leaves the all-true mask unchanged. -/
theorem C10_whitespace_query_matches_all (t : Table) (sel : ColSel)
    (q : String) (resp : TransResponse) (hrows : t.rows ≠ [])
    (hq : q ≠ "") (hws : ∀ c ∈ q.data, c.isWhitespace = true) :
    smart_search_query t sel q resp = t.rows := by
  have heng : is_english q = false := by
    unfold is_english
    rw [← Bool.not_eq_true, List.any_eq_true]
    rintro ⟨c, hc, hlatin⟩
    rw [not_english_of_whitespace c (hws c hc)] at hlatin
    exact Bool.false_ne_true hlatin
  have hsplit : pySplit q = [] := splitWsAux_all_ws q.data hws
  unfold smart_search_query search_variations
  rw [heng]
  simp only [Bool.false_eq_true, if_false]
  rw [smart_search_eq_filter]
  have hall : ∀ r ∈ t.rows,
      matchesQuery (searchText t sel r) [q] = true := by
    intro r _
    simp [matchesQuery, matchesVariation, hsplit]
  calc t.rows.filter (fun r => matchesQuery (searchText t sel r) [q])
      = t.rows.filter (fun _ => true) := List.filter_congr (fun r hr => hall r hr)
    _ = t.rows := List.filter_true t.rows

/-- Witness for C10: a blank (space-only) query over a concrete two-row
table returns both rows. -/
theorem C10_whitespace_query_matches_all_witness :
    smart_search_query ⟨["Name"], [[some "Ravi"], [some "Kumar"]]⟩ .all
        "  " .exn
      = [[some "Ravi"], [some "Kumar"]] :=
  C10_whitespace_query_matches_all _ .all "  " .exn (by decide) (by decide)
    (by decide)

/-! ## Case-folding lemmas (for C6) -/

theorem char_eq_of_toNat_eq (a b : Char) (h : a.toNat = b.toNat) : a = b :=
  Char.ext (UInt32.ext h)

theorem toNat_char_ofNat (n : Nat) (h : n.isValidChar) :
    (Char.ofNat n).toNat = n := by
  unfold Char.ofNat Char.ofNatAux
  rw [dif_pos h]
  rfl

theorem isWhitespace_toNat (c : Char) :
    c.isWhitespace
      = (decide (c.toNat = 32) || decide (c.toNat = 9)
          || decide (c.toNat = 13) || decide (c.toNat = 10)) := by
  have h32 : (c = ' ') ↔ c.toNat = 32 :=
    ⟨fun h => by subst h; rfl, fun h => char_eq_of_toNat_eq _ _ h⟩
  have h9 : (c = '\t') ↔ c.toNat = 9 :=
    ⟨fun h => by subst h; rfl, fun h => char_eq_of_toNat_eq _ _ h⟩
  have h13 : (c = '\x0d') ↔ c.toNat = 13 :=
    ⟨fun h => by subst h; rfl, fun h => char_eq_of_toNat_eq _ _ h⟩
  have h10 : (c = '\n') ↔ c.toNat = 10 :=
    ⟨fun h => by subst h; rfl, fun h => char_eq_of_toNat_eq _ _ h⟩
  unfold Char.isWhitespace
  rw [decide_eq_decide.mpr h32, decide_eq_decide.mpr h9,
    decide_eq_decide.mpr h13, decide_eq_decide.mpr h10]

theorem isWhitespace_toLower (c : Char) :
    (Char.toLower c).isWhitespace = c.isWhitespace := by
  unfold Char.toLower
  by_cases h : c.toNat ≥ 65 ∧ c.toNat ≤ 90
  · rw [if_pos h]
    have hvalid : (c.toNat + 32).isValidChar := Or.inl (by omega)
    rw [isWhitespace_toNat, isWhitespace_toNat, toNat_char_ofNat _ hvalid]
    rw [decide_eq_false (by omega : ¬c.toNat + 32 = 32),
      decide_eq_false (by omega : ¬c.toNat + 32 = 9),
      decide_eq_false (by omega : ¬c.toNat + 32 = 13),
      decide_eq_false (by omega : ¬c.toNat + 32 = 10),
      decide_eq_false (by omega : ¬c.toNat = 32),
      decide_eq_false (by omega : ¬c.toNat = 9),
      decide_eq_false (by omega : ¬c.toNat = 13),
      decide_eq_false (by omega : ¬c.toNat = 10)]
  · rw [if_neg h]

theorem splitWsAux_map_toLower (l : List Char) (acc : List Char) :
    splitWsAux (acc.map Char.toLower) (l.map Char.toLower)
      = (splitWsAux acc l).map (List.map Char.toLower) := by
  induction l generalizing acc with
  | nil =>
    by_cases h : acc.isEmpty
    · rw [List.isEmpty_iff] at h
      subst h
      rfl
    · rw [List.isEmpty_iff] at h
      match acc, h with
      | a :: as, _ => simp [splitWsAux, List.map_reverse]
  | cons c cs ih =>
    simp only [List.map_cons, splitWsAux, isWhitespace_toLower]
    by_cases hw : c.isWhitespace
    · rw [if_pos hw, if_pos hw]
      by_cases ha : acc.isEmpty
      · rw [List.isEmpty_iff] at ha
        subst ha
        simpa using ih []
      · rw [List.isEmpty_iff] at ha
        match acc, ha with
        | a :: as, _ =>
          simpa [List.map_reverse] using ih []
    · rw [if_neg hw, if_neg hw]
      exact ih (c :: acc)

theorem pySplit_lower (s : String) :
    splitWsAux [] (lowerStr s) = (pySplit s).map (List.map Char.toLower) := by
  have := splitWsAux_map_toLower s.data []
  simpa [lowerStr, pySplit] using this

theorem matchesVariation_congr (s1 s2 v1 v2 : String)
    (hs : lowerStr s1 = lowerStr s2) (hv : lowerStr v1 = lowerStr v2) :
    matchesVariation s1 v1 = matchesVariation s2 v2 := by
  unfold matchesVariation
  have hsplit : (pySplit v1).map (List.map Char.toLower)
      = (pySplit v2).map (List.map Char.toLower) := by
    rw [← pySplit_lower, ← pySplit_lower, hv]
  have hview : ∀ (s : String) (ks : List (List Char)),
      ks.all (containsCI s)
        = (ks.map (List.map Char.toLower)).all
            (fun k => decide (k <:+: lowerStr s)) := by
    intro s ks
    rw [List.all_map]
    rfl
  rw [hview, hview, hsplit, hs]

theorem list_any_map {α β : Type} (f : α → β) (l : List α) (p : β → Bool) :
    (l.map f).any p = l.any (p ∘ f) := by
  induction l with
  | nil => rfl
  | cons x xs ih => simp [List.any_cons, ih]

theorem map_congr_of_lower {β : Type} (f1 f2 : String → β)
    (hf : ∀ s1 s2, lowerStr s1 = lowerStr s2 → f1 s1 = f2 s2) :
    ∀ l1 l2 : List String, l1.map lowerStr = l2.map lowerStr →
      l1.map f1 = l2.map f2 := by
  intro l1
  induction l1 with
  | nil =>
    intro l2 h
    cases l2 with
    | nil => rfl
    | cons y ys => simp at h
  | cons x xs ih =>
    intro l2 h
    cases l2 with
    | nil => simp at h
    | cons y ys =>
      simp only [List.map_cons, List.cons.injEq] at h ⊢
      exact ⟨hf x y h.1, ih ys h.2⟩

theorem matchesQuery_congr (s1 s2 : String) (vars1 vars2 : List String)
    (hs : lowerStr s1 = lowerStr s2)
    (hv : vars1.map lowerStr = vars2.map lowerStr) :
    matchesQuery s1 vars1 = matchesQuery s2 vars2 := by
  unfold matchesQuery
  have hmap : vars1.map (matchesVariation s1) = vars2.map (matchesVariation s2) :=
    map_congr_of_lower _ _ (fun v1 v2 hv' => matchesVariation_congr _ _ _ _ hs hv')
      vars1 vars2 hv
  have h1 : vars1.any (matchesVariation s1)
      = (vars1.map (matchesVariation s1)).any id :=
    (list_any_map (matchesVariation s1) vars1 id).symm
  have h2 : vars2.any (matchesVariation s2)
      = (vars2.map (matchesVariation s2)).any id :=
    (list_any_map (matchesVariation s2) vars2 id).symm
  rw [h1, h2, hmap]

/-- **C6 (amended), positive part.** Smart-mode matching is case-insensitive:
if the searchable texts of two tables agree up to letter case entry-by-entry,
and the two variation lists agree up to letter case entry-by-entry, the
match masks — and hence which row positions are returned — are identical. -/
theorem C6_smart_matching_case_insensitive
    (series1 series2 vars1 vars2 : List String)
    (hs : series1.map lowerStr = series2.map lowerStr)
    (hv : vars1.map lowerStr = vars2.map lowerStr) :
    final_mask series1 vars1 = final_mask series2 vars2 := by
  rw [final_mask_eq_map, final_mask_eq_map]
  exact map_congr_of_lower _ _
    (fun a b hab => matchesQuery_congr a b vars1 vars2 hab hv) series1 series2 hs

/-- Witness for the amended C6 (smart part): changing only letter case of the
cell text and of the variation leaves the match mask unchanged. -/
theorem C6_smart_matching_case_insensitive_witness :
    final_mask ["RAVI KUMAR", "Shankrappa"] ["kumar"]
      = final_mask ["ravi kumar", "SHANKRAPPA"] ["KUMAR"] :=
  C6_smart_matching_case_insensitive _ _ _ _ (by decide) (by decide)

/-! ## Fuzzy search

`process.extract(target_term, search_series, scorer=fuzz.token_sort_ratio,
limit=100, score_cutoff=70)` is a call into the external rapidfuzz library.
The scorer and the extraction are embedded below following the library's
documented algorithm and the spec (§4.3): `token_sort_ratio` sorts the
whitespace tokens of each side, joins them with single spaces and takes the
normalized indel similarity on a 0–100 scale — with *no* preprocessing of
the raw text; `extract` keeps the choices scoring at least the cutoff and
returns the highest-scoring `limit` of them, ordered by descending score
with ties broken by original index. -/

/-- Code-point lexicographic `≤` on strings-as-char-lists (Python `sorted`
order on strings). -/
def charListLe : List Char → List Char → Bool
  | [], _ => true
  | _ :: _, [] => false
  | x :: xs, y :: ys => if x < y then true else if y < x then false else charListLe xs ys

def insertToken (x : List Char) : List (List Char) → List (List Char)
  | [] => [x]
  | y :: ys => if charListLe x y then x :: y :: ys else y :: insertToken x ys

/-- `sorted(tokens)`. -/
def sortTokens : List (List Char) → List (List Char)
  | [] => []
  | x :: xs => insertToken x (sortTokens xs)

/-- `' '.join(tokens)`. -/
def joinTokens : List (List Char) → List Char
  | [] => []
  | [t] => t
  | t :: ts => t ++ ' ' :: joinTokens ts

/-- The token-sort normal form of `fuzz.token_sort_ratio`:
`' '.join(sorted(s.split()))`, on the raw (case-preserved) text. -/
def token_sort (s : String) : List Char := joinTokens (sortTokens (pySplit s))

/-- One row update of the longest-common-subsequence dynamic program:
`row.get i = LCS(xs-prefix of length i+1, ys-prefix seen so far)`. -/
def lcsNextAux (y : Char) : List Char → List Nat → Nat → Nat → List Nat
  | [], _, _, _ => []
  | _ :: _, [], _, _ => []
  | x :: xs, p :: ps, diag, cur =>
    let v := if x = y then diag + 1 else max cur p
    v :: lcsNextAux y xs ps p v

/-- Length of a longest common subsequence. -/
def lcs (xs ys : List Char) : Nat :=
  (ys.foldl (fun row y => lcsNextAux y xs row 0 0)
    (List.replicate xs.length 0)).getLastD 0

/-- The indel (insertion/deletion) edit distance underlying `fuzz.ratio`. -/
def indelDist (xs ys : List Char) : Nat :=
  xs.length + ys.length - 2 * lcs xs ys

/-- `fuzz.ratio`: normalized indel similarity on a 0–100 scale, the exact
rational `100·(len₁+len₂−dist)/(len₁+len₂)` (and `100` for two empty
strings). -/
def fuzzRatio (xs ys : List Char) : ℚ :=
  if xs.length + ys.length = 0 then 100
  else mkRat (((xs.length + ys.length - indelDist xs ys) * 100 : Nat) : Int)
    (xs.length + ys.length)

/-- `fuzz.token_sort_ratio`, as called by the source: no `processor` is
passed, so the raw case-preserved texts are compared. -/
def token_sort_ratio (a b : String) : ℚ :=
  fuzzRatio (token_sort a) (token_sort b)

/-- Result order of `process.extract`: higher score first, ties by original
index. -/
def extractRel (a b : String × ℚ × Nat) : Prop :=
  b.2.1 < a.2.1 ∨ (a.2.1 = b.2.1 ∧ a.2.2 ≤ b.2.2)

instance : DecidableRel extractRel := fun a b => by
  unfold extractRel
  infer_instance

instance : IsTotal (String × ℚ × Nat) extractRel where
  total a b := by
    unfold extractRel
    rcases lt_trichotomy a.2.1 b.2.1 with h | h | h
    · exact Or.inr (Or.inl h)
    · rcases Nat.le_total a.2.2 b.2.2 with h' | h'
      · exact Or.inl (Or.inr ⟨h, h'⟩)
      · exact Or.inr (Or.inr ⟨h.symm, h'⟩)
    · exact Or.inl (Or.inl h)

instance : IsTrans (String × ℚ × Nat) extractRel where
  trans a b c hab hbc := by
    unfold extractRel at *
    rcases hab with hab | ⟨hab, hab'⟩
    · rcases hbc with hbc | ⟨hbc, _⟩
      · exact Or.inl (hbc.trans hab)
      · exact Or.inl (by rw [← hbc]; exact hab)
    · rcases hbc with hbc | ⟨hbc, hbc'⟩
      · exact Or.inl (by rw [hab]; exact hbc)
      · exact Or.inr ⟨hab.trans hbc, hab'.trans hbc'⟩

/-- Modelled from the spec: `rapidfuzz.process.extract` is external library
code (spec §4.3) — score every choice against the target, keep those at or
above the cutoff, and return the `limit` best as `(choice, score, index)`
triples ordered by descending score, ties broken by original order. -/
def extract (scorer : String → String → ℚ) (target : String)
    (choices : List String) (limit : Nat) (cutoff : ℚ) :
    List (String × ℚ × Nat) :=
  let scored := choices.enum.map (fun p => (p.2, scorer target p.2, p.1))
  let filtered := scored.filter (fun m => decide (cutoff ≤ m.2.1))
  (List.insertionSort extractRel filtered).take limit

/-- The fuzzy branch of the source: extract the matches of the searchable
series, then take the rows at the matched indices (`df.iloc[indices]`). -/
def fuzzy_search {α : Type} (rows : List α) (text : α → String)
    (target : String) : List α :=
  ((extract token_sort_ratio target (rows.map text) 100 70).map
    (fun m => m.2.2)).filterMap (fun i => rows[i]?)

/-! ## Extraction lemmas (for C2) -/

theorem extract_mem (scorer : String → String → ℚ) (target : String)
    (choices : List String) (limit : Nat) (cutoff : ℚ)
    (m : String × ℚ × Nat) (hm : m ∈ extract scorer target choices limit cutoff) :
    choices[m.2.2]? = some m.1 ∧ m.2.1 = scorer target m.1 ∧ cutoff ≤ m.2.1 := by
  unfold extract at hm
  have h1 : m ∈ List.insertionSort extractRel
      ((choices.enum.map (fun p => (p.2, scorer target p.2, p.1))).filter
        (fun m => decide (cutoff ≤ m.2.1))) :=
    List.mem_of_mem_take hm
  have h2 := (List.perm_insertionSort extractRel _).mem_iff.mp h1
  rw [List.mem_filter] at h2
  obtain ⟨hmem, hcut⟩ := h2
  rw [decide_eq_true_eq] at hcut
  obtain ⟨p, hp, hpe⟩ := List.mem_map.mp hmem
  have hget := List.mem_enum_iff_getElem?.mp hp
  subst hpe
  exact ⟨hget, rfl, hcut⟩

theorem extract_length (scorer : String → String → ℚ) (target : String)
    (choices : List String) (limit : Nat) (cutoff : ℚ) :
    (extract scorer target choices limit cutoff).length ≤ limit := by
  unfold extract
  simp

theorem extract_pairwise (scorer : String → String → ℚ) (target : String)
    (choices : List String) (limit : Nat) (cutoff : ℚ) :
    (extract scorer target choices limit cutoff).Pairwise extractRel := by
  unfold extract
  exact List.Pairwise.sublist (List.take_sublist _ _)
    (List.sorted_insertionSort extractRel _)

theorem extract_indices_nodup (scorer : String → String → ℚ) (target : String)
    (choices : List String) (limit : Nat) (cutoff : ℚ) :
    ((extract scorer target choices limit cutoff).map (fun m => m.2.2)).Nodup := by
  unfold extract
  have hscored : ((choices.enum.map (fun p => (p.2, scorer target p.2, p.1))).map
      (fun m => m.2.2)).Nodup := by
    rw [List.map_map]
    have : ((fun (m : String × ℚ × Nat) => m.2.2)
        ∘ (fun (p : Nat × String) => (p.2, scorer target p.2, p.1)))
        = Prod.fst := rfl
    rw [this, List.enum_map_fst]
    exact List.nodup_range _
  have hfilter : (((choices.enum.map (fun p => (p.2, scorer target p.2, p.1))).filter
      (fun m => decide (cutoff ≤ m.2.1))).map (fun m => m.2.2)).Nodup :=
    List.Nodup.sublist (List.Sublist.map _ (List.filter_sublist _)) hscored
  have hsort : ((List.insertionSort extractRel
      ((choices.enum.map (fun p => (p.2, scorer target p.2, p.1))).filter
        (fun m => decide (cutoff ≤ m.2.1)))).map (fun m => m.2.2)).Nodup :=
    ((List.perm_insertionSort extractRel _).map _).nodup_iff.mpr hfilter
  exact List.Nodup.sublist (List.Sublist.map _ (List.take_sublist _ _)) hsort

theorem filterMap_getElem_length {α : Type} (rows : List α) (idxs : List Nat)
    (h : ∀ i ∈ idxs, i < rows.length) :
    (idxs.filterMap (fun i => rows[i]?)).length = idxs.length := by
  induction idxs with
  | nil => rfl
  | cons i is ih =>
    have hi : i < rows.length := h i (List.mem_cons_self _ _)
    rw [List.filterMap_cons, List.getElem?_eq_getElem hi]
    simp only [List.length_cons]
    rw [ih (fun j hj => h j (List.mem_cons_of_mem _ hj))]

/-- **C2.** Fuzzy-search result properties (the extraction itself is external
rapidfuzz code, modelled from the spec): every match records a choice string
at its original index, scored by `token_sort_ratio` against the target with
score ≥ 70; there are at most 100 matches; they are ordered by strictly
descending score with ties broken by ascending original row order; and the
returned rows are a subset of the table with exactly one row per match. -/
theorem C2_fuzzy_result_properties {α : Type} (rows : List α)
    (text : α → String) (target : String) :
    (∀ m ∈ extract token_sort_ratio target (rows.map text) 100 70,
        (rows.map text)[m.2.2]? = some m.1
        ∧ m.2.1 = token_sort_ratio target m.1
        ∧ (70 : ℚ) ≤ m.2.1)
      ∧ (extract token_sort_ratio target (rows.map text) 100 70).length ≤ 100
      ∧ (extract token_sort_ratio target (rows.map text) 100 70).Pairwise
          (fun a b => b.2.1 < a.2.1 ∨ (a.2.1 = b.2.1 ∧ a.2.2 < b.2.2))
      ∧ (∀ r ∈ fuzzy_search rows text target, r ∈ rows)
      ∧ (fuzzy_search rows text target).length
          = (extract token_sort_ratio target (rows.map text) 100 70).length := by
  refine ⟨fun m hm => extract_mem _ _ _ _ _ m hm, extract_length _ _ _ _ _,
    ?_, ?_, ?_⟩
  · have hpw := extract_pairwise token_sort_ratio target (rows.map text) 100 70
    have hnd := extract_indices_nodup token_sort_ratio target (rows.map text) 100 70
    rw [List.Nodup, List.pairwise_map] at hnd
    refine (hpw.and hnd).imp ?_
    rintro a b ⟨hab | ⟨heq, hle⟩, hne⟩
    · exact Or.inl hab
    · exact Or.inr ⟨heq, lt_of_le_of_ne hle hne⟩
  · intro r hr
    unfold fuzzy_search at hr
    obtain ⟨i, _, hget⟩ := List.mem_filterMap.mp hr
    exact List.getElem?_mem hget
  · unfold fuzzy_search
    have hvalid : ∀ i ∈ (extract token_sort_ratio target (rows.map text)
        100 70).map (fun m => m.2.2), i < rows.length := by
      intro i hi
      obtain ⟨m, hm, rfl⟩ := List.mem_map.mp hi
      have hget := (extract_mem _ _ _ _ _ m hm).1
      have hlt := (List.getElem?_eq_some_iff.mp hget).1
      simpa using hlt
    rw [filterMap_getElem_length rows _ hvalid, List.length_map]

/-- Witness for C2 at a concrete one-row table: the sole match carries the
row's text at index 0 with score 100 ≥ 70, and the row is returned. -/
theorem C2_fuzzy_result_properties_witness :
    ("ravi kumar", (100 : ℚ), 0) ∈ extract token_sort_ratio "ravi kumar"
        (["ravi kumar"].map id) 100 70
      ∧ (100 : ℚ) = token_sort_ratio "ravi kumar" "ravi kumar"
      ∧ (70 : ℚ) ≤ (100 : ℚ)
      ∧ "ravi kumar" ∈ fuzzy_search ["ravi kumar"] id "ravi kumar" := by
  have h := C2_fuzzy_result_properties ["ravi kumar"] id "ravi kumar"
  have hmem : ("ravi kumar", (100 : ℚ), 0) ∈ extract token_sort_ratio
      "ravi kumar" (["ravi kumar"].map id) 100 70 := by decide
  have hprops := h.1 _ hmem
  refine ⟨hmem, hprops.2.1, hprops.2.2, h.2.2.2.1 "ravi kumar" (by decide)⟩

/-- **C6 counterexample.** Fuzzy scoring is case-sensitive: the source passes
the raw searchable text to `fuzz.token_sort_ratio` with no preprocessing, so
changing only the letter case of the cell text changes the returned rows —
`"ravi kumar"` is returned for target `"ravi kumar"`, but its upper-case
variant (same text up to letter case) scores 10 < 70 and is not. -/
theorem C6_counterexample :
    fuzzy_search ["ravi kumar"] id "ravi kumar" = ["ravi kumar"]
      ∧ fuzzy_search ["RAVI KUMAR"] id "ravi kumar" = []
      ∧ lowerStr "RAVI KUMAR" = lowerStr "ravi kumar" :=
  ⟨by decide, by decide, by decide⟩

/-! ## Row-wise concatenation (for C8) -/

/-- Modelled from the spec: `pd.concat(dfs, ignore_index=True)` is external
pandas code (spec §4.1) — the result's columns are the union of the sources'
column names in first-seen order. -/
def unionCols (ts : List Table) : List String :=
  dedupFirst (ts.flatMap Table.cols)

/-- One source row re-indexed to the concatenated column list: the value
under each result column, `none` (missing) when the row's source table lacks
that column. -/
def reindexRow (allCols : List String) (cols : List String)
    (row : List (Option String)) : List (Option String) :=
  allCols.map (colValue cols row)

/-- Modelled from the spec: row-wise concatenation of loaded tables —
columns are unioned in first-seen order, each source row is re-indexed to
the union, cells under columns absent from the row's source are filled with
the missing value. -/
def concatTables (ts : List Table) : Table :=
  { cols := unionCols ts
    rows := ts.flatMap (fun t => t.rows.map (reindexRow (unionCols ts) t.cols)) }

theorem dedupAux_sublist {α : Type} [DecidableEq α] (seen : List α)
    (l : List α) : (dedupAux seen l).Sublist l := by
  induction l generalizing seen with
  | nil => simp [dedupAux]
  | cons x xs ih =>
    by_cases hx : x ∈ seen
    · simp only [dedupAux, if_pos hx]
      exact (ih seen).cons x
    · simp only [dedupAux, if_neg hx]
      exact (ih (x :: seen)).cons₂ x

theorem mem_dedupAux_of_mem {α : Type} [DecidableEq α] (seen : List α)
    (l : List α) (x : α) (hx : x ∈ l) (hs : x ∉ seen) :
    x ∈ dedupAux seen l := by
  induction l generalizing seen with
  | nil => simp at hx
  | cons y ys ih =>
    by_cases hy : y ∈ seen
    · simp only [dedupAux, if_pos hy]
      rcases List.mem_cons.mp hx with rfl | hx'
      · exact absurd hy hs
      · exact ih seen hx' hs
    · simp only [dedupAux, if_neg hy]
      rcases List.mem_cons.mp hx with rfl | hx'
      · exact List.mem_cons_self _ _
      · by_cases hxy : x = y
        · subst hxy
          exact List.mem_cons_self _ _
        · exact List.mem_cons_of_mem _
            (ih (y :: seen) hx' (by simp [List.mem_cons, hxy, hs]))

theorem mem_dedupFirst {α : Type} [DecidableEq α] (l : List α) (x : α) :
    x ∈ dedupFirst l ↔ x ∈ l :=
  ⟨fun h => (mem_dedupAux [] l x h).1,
    fun h => mem_dedupAux_of_mem [] l x h (List.not_mem_nil x)⟩

theorem colValue_not_mem (cols : List String) (row : List (Option String))
    (c : String) (hc : c ∉ cols) : colValue cols row c = none := by
  unfold colValue
  have h : (cols.zip row).find? (fun p => p.1 == c) = none := by
    apply List.find?_eq_none.mpr
    intro p hp
    have hmem := List.of_mem_zip hp
    rw [beq_iff_eq]
    intro hpc
    exact hc (hpc ▸ hmem.1)
  rw [h]

/-- **C8 (amended).** Concatenation of loaded tables with mismatched
columns: the result's columns are the union of the sources' column names in
first-seen order (each name kept once, at its first occurrence, order
preserved); each source row is re-indexed to the union and a cell under a
column absent from the row's source holds the missing value; under the
all-columns selector a row's searchable text joins every column's
`astype(str)` rendering with single spaces — a missing cell rendering as the
string `"nan"`, not as empty text. -/
theorem C8_concat_gap_filling (ts : List Table) :
    (concatTables ts).cols = dedupFirst (ts.flatMap Table.cols)
      ∧ (∀ c, c ∈ (concatTables ts).cols ↔ c ∈ ts.flatMap Table.cols)
      ∧ (concatTables ts).cols.Nodup
      ∧ (concatTables ts).cols.Sublist (ts.flatMap Table.cols)
      ∧ (concatTables ts).rows
          = ts.flatMap (fun t => t.rows.map (reindexRow (concatTables ts).cols t.cols))
      ∧ (∀ allCols cols (row : List (Option String)) (i : Nat),
          i < allCols.length → allCols[i]! ∉ cols →
            (reindexRow allCols cols row)[i]? = some none)
      ∧ (∀ cols (row : List (Option String)) c, c ∉ cols →
          colValue cols row c = none ∧ cellStr (colValue cols row c) = "nan")
      ∧ search_series (concatTables ts) .all
          = (concatTables ts).rows.map (fun r => joinSpace (r.map cellStr)) := by
  refine ⟨rfl, fun c => mem_dedupFirst _ c, dedupFirst_nodup _,
    dedupAux_sublist [] _, rfl, ?_, ?_, rfl⟩
  · intro allCols cols row i hi hmem
    unfold reindexRow
    rw [List.getElem?_map, List.getElem?_eq_getElem hi, Option.map_some',
      colValue_not_mem cols row _ (by rwa [getElem!_pos allCols i hi] at hmem)]
  · intro cols row c hc
    rw [colValue_not_mem cols row c hc]
    exact ⟨rfl, rfl⟩

/-- Witness for the amended C8 at two concrete one-column tables: union of
columns in first-seen order, missing cells filled with the missing value and
rendering as `"nan"` in the searchable text. -/
theorem C8_concat_gap_filling_witness :
    (concatTables [⟨["A"], [[some "a"]]⟩, ⟨["B"], [[some "b"]]⟩]).cols
        = ["A", "B"]
      ∧ (reindexRow ["A", "B"] ["A"] [some "a"])[1]? = some none
      ∧ cellStr (colValue ["A"] [some "a"] "B") = "nan" := by
  have h := C8_concat_gap_filling [⟨["A"], [[some "a"]]⟩, ⟨["B"], [[some "b"]]⟩]
  refine ⟨by decide, ?_, ?_⟩
  · exact h.2.2.2.2.2.1 ["A", "B"] ["A"] [some "a"] 1 (by decide) (by decide)
  · exact (h.2.2.2.2.2.2.1 ["A"] [some "a"] "B" (by decide)).2

/-- The searchable text that the claim's words prescribe: every column's
text value joined by single spaces, an *empty* cell contributing empty text.
This definition follows the spec's words, for comparison with the code's
`astype(str)` rendering. -/
def specCellStr : Option String → String
  | some s => s
  | none => ""

def specSearchText (row : List (Option String)) : String :=
  joinSpace (row.map specCellStr)

/-- **C8 counterexample.** On the concatenation of two one-column tables the
code's all-columns searchable texts are `"a nan"` and `"nan b"` — the
missing cells render as `"nan"` — while the claim's reading (empty value
contributing empty text) prescribes `"a "` and `" b"`: the two differ. -/
theorem C8_counterexample :
    search_series (concatTables [⟨["A"], [[some "a"]]⟩, ⟨["B"], [[some "b"]]⟩])
        .all = ["a nan", "nan b"]
      ∧ (concatTables [⟨["A"], [[some "a"]]⟩, ⟨["B"], [[some "b"]]⟩]).rows.map
          specSearchText = ["a ", " b"]
      ∧ (["a nan", "nan b"] : List String) ≠ ["a ", " b"] :=
  ⟨by decide, by decide, by decide⟩

/-! ## Byte-level text codecs (for C7 and C9)

Byte streams are `List Nat` with one entry per byte.  `encodeUtf8` /
`decodeUtf8` model Python's `utf-8` codec (strict: continuation ranges,
overlong forms, surrogates and out-of-range values are rejected);
`decodeLatin1` models the `latin1` codec, which accepts every byte. -/

/-- UTF-8 encoding of one scalar value. -/
def encodeChar (c : Char) : List Nat :=
  let n := c.toNat
  if n < 128 then [n]
  else if n < 2048 then [192 + n / 64, 128 + n % 64]
  else if n < 65536 then [224 + n / 4096, 128 + (n / 64) % 64, 128 + n % 64]
  else [240 + n / 262144, 128 + (n / 4096) % 64, 128 + (n / 64) % 64, 128 + n % 64]

def encodeUtf8 (s : List Char) : List Nat := s.flatMap encodeChar

/-- Decoder state: the characters decoded so far, the value of the sequence
being assembled, how many continuation bytes it still needs, and the least
final value the current lead byte admits (the overlong check). -/
structure Utf8S where
  chars : List Char
  pending : Nat
  need : Nat
  low : Nat
deriving DecidableEq

/-- One byte of strict UTF-8 decoding (`none` = the stream is malformed):
a lead byte opens a 1–4 byte sequence, a continuation byte extends it, and
the completed value is checked against the overlong bound, the surrogate
range and the scalar-value maximum. -/
def utf8Byte (st : Option Utf8S) (b : Nat) : Option Utf8S :=
  match st with
  | none => none
  | some s =>
    if s.need = 0 then
      if b < 128 then some ⟨s.chars ++ [Char.ofNat b], 0, 0, 0⟩
      else if b < 192 then none
      else if b < 224 then some ⟨s.chars, b - 192, 1, 128⟩
      else if b < 240 then some ⟨s.chars, b - 224, 2, 2048⟩
      else if b < 245 then some ⟨s.chars, b - 240, 3, 65536⟩
      else none
    else
      if 128 ≤ b ∧ b < 192 then
        if s.need = 1 then
          if s.low ≤ s.pending * 64 + (b - 128)
              ∧ s.pending * 64 + (b - 128) < 1114112
              ∧ ¬(55296 ≤ s.pending * 64 + (b - 128)
                  ∧ s.pending * 64 + (b - 128) < 57344) then
            some ⟨s.chars ++ [Char.ofNat (s.pending * 64 + (b - 128))], 0, 0, 0⟩
          else none
        else some ⟨s.chars, s.pending * 64 + (b - 128), s.need - 1, s.low⟩
      else none

/-- Strict UTF-8 decoding of a byte stream; `none` on any malformed input
(bad lead or continuation byte, overlong form, surrogate, out-of-range
value, or truncated final sequence). -/
def decodeUtf8 (bs : List Nat) : Option (List Char) :=
  match bs.foldl utf8Byte (some ⟨[], 0, 0, 0⟩) with
  | some s => if s.need = 0 then some s.chars else none
  | none => none

/-- `latin1` maps each byte to the code point of the same value; it accepts
every byte, so this fallback decode never fails. -/
def decodeLatin1 (bs : List Nat) : List Char := bs.map Char.ofNat

theorem char_valid_toNat (c : Char) : c.toNat.isValidChar := c.valid

theorem utf8Byte_ascii (cs : List Char) (b : Nat) (h : b < 128) :
    utf8Byte (some ⟨cs, 0, 0, 0⟩) b = some ⟨cs ++ [Char.ofNat b], 0, 0, 0⟩ := by
  simp [utf8Byte, h]

theorem utf8Byte_lead2 (cs : List Char) (b : Nat) (h1 : 192 ≤ b)
    (h2 : b < 224) :
    utf8Byte (some ⟨cs, 0, 0, 0⟩) b = some ⟨cs, b - 192, 1, 128⟩ := by
  have h3 : ¬ b < 128 := by omega
  have h4 : ¬ b < 192 := by omega
  simp [utf8Byte, h3, h4, h2]

theorem utf8Byte_lead3 (cs : List Char) (b : Nat) (h1 : 224 ≤ b)
    (h2 : b < 240) :
    utf8Byte (some ⟨cs, 0, 0, 0⟩) b = some ⟨cs, b - 224, 2, 2048⟩ := by
  have h3 : ¬ b < 128 := by omega
  have h4 : ¬ b < 192 := by omega
  have h5 : ¬ b < 224 := by omega
  simp [utf8Byte, h3, h4, h5, h2]

theorem utf8Byte_lead4 (cs : List Char) (b : Nat) (h1 : 240 ≤ b)
    (h2 : b < 245) :
    utf8Byte (some ⟨cs, 0, 0, 0⟩) b = some ⟨cs, b - 240, 3, 65536⟩ := by
  have h3 : ¬ b < 128 := by omega
  have h4 : ¬ b < 192 := by omega
  have h5 : ¬ b < 224 := by omega
  have h6 : ¬ b < 240 := by omega
  simp [utf8Byte, h3, h4, h5, h6, h2]

theorem utf8Byte_cont (cs : List Char) (pending need low b : Nat)
    (hb1 : 128 ≤ b) (hb2 : b < 192) (hneed : 2 ≤ need) :
    utf8Byte (some ⟨cs, pending, need, low⟩) b
      = some ⟨cs, pending * 64 + (b - 128), need - 1, low⟩ := by
  have h0 : ¬ need = 0 := by omega
  have h1 : ¬ need = 1 := by omega
  simp [utf8Byte, h0, h1, hb1, hb2]

theorem utf8Byte_last (cs : List Char) (pending low b : Nat) (hb1 : 128 ≤ b)
    (hb2 : b < 192) (hlow : low ≤ pending * 64 + (b - 128))
    (hmax : pending * 64 + (b - 128) < 1114112)
    (hsur : ¬(55296 ≤ pending * 64 + (b - 128)
      ∧ pending * 64 + (b - 128) < 57344)) :
    utf8Byte (some ⟨cs, pending, 1, low⟩) b
      = some ⟨cs ++ [Char.ofNat (pending * 64 + (b - 128))], 0, 0, 0⟩ := by
  simp [utf8Byte, hb1, hb2, hlow, hmax, hsur]

theorem utf8Byte_encodeChar (c : Char) (cs : List Char) :
    (encodeChar c).foldl utf8Byte (some ⟨cs, 0, 0, 0⟩)
      = some ⟨cs ++ [c], 0, 0, 0⟩ := by
  have hval : c.toNat < 55296 ∨ 57343 < c.toNat ∧ c.toNat < 1114112 :=
    char_valid_toNat c
  set n := c.toNat with hn
  have hofNat : Char.ofNat n = c := Char.ofNat_toNat c
  by_cases h1 : n < 128
  · rw [encodeChar, ← hn, if_pos h1, List.foldl_cons, List.foldl_nil,
      utf8Byte_ascii cs n h1, hofNat]
  · by_cases h2 : n < 2048
    · rw [encodeChar, ← hn, if_neg h1, if_pos h2, List.foldl_cons,
        List.foldl_cons, List.foldl_nil,
        utf8Byte_lead2 cs _ (by omega) (by omega)]
      have e1 : 192 + n / 64 - 192 = n / 64 := by omega
      rw [e1, utf8Byte_last cs (n / 64) 128 (128 + n % 64) (by omega)
        (by omega) (by omega) (by omega) (by omega)]
      have e2 : n / 64 * 64 + (128 + n % 64 - 128) = n := by omega
      rw [e2, hofNat]
    · by_cases h3 : n < 65536
      · rw [encodeChar, ← hn, if_neg h1, if_neg h2, if_pos h3,
          List.foldl_cons, List.foldl_cons, List.foldl_cons, List.foldl_nil,
          utf8Byte_lead3 cs _ (by omega) (by omega)]
        have e1 : 224 + n / 4096 - 224 = n / 4096 := by omega
        rw [e1, utf8Byte_cont cs (n / 4096) 2 2048 (128 + (n / 64) % 64)
          (by omega) (by omega) (by omega)]
        have e2 : (2 : Nat) - 1 = 1 := rfl
        have e3 : n / 4096 * 64 + (128 + (n / 64) % 64 - 128) = n / 64 := by
          omega
        rw [e2, e3, utf8Byte_last cs (n / 64) 2048 (128 + n % 64) (by omega)
          (by omega) (by omega) (by omega) (by omega)]
        have e4 : n / 64 * 64 + (128 + n % 64 - 128) = n := by omega
        rw [e4, hofNat]
      · rw [encodeChar, ← hn, if_neg h1, if_neg h2, if_neg h3,
          List.foldl_cons, List.foldl_cons, List.foldl_cons, List.foldl_cons,
          List.foldl_nil, utf8Byte_lead4 cs _ (by omega) (by omega)]
        have e1 : 240 + n / 262144 - 240 = n / 262144 := by omega
        rw [e1, utf8Byte_cont cs (n / 262144) 3 65536 (128 + (n / 4096) % 64)
          (by omega) (by omega) (by omega)]
        have e2 : (3 : Nat) - 1 = 2 := rfl
        have e3 : n / 262144 * 64 + (128 + (n / 4096) % 64 - 128) = n / 4096 := by
          omega
        rw [e2, e3, utf8Byte_cont cs (n / 4096) 2 65536 (128 + (n / 64) % 64)
          (by omega) (by omega) (by omega)]
        have e4 : (2 : Nat) - 1 = 1 := rfl
        have e5 : n / 4096 * 64 + (128 + (n / 64) % 64 - 128) = n / 64 := by
          omega
        rw [e4, e5, utf8Byte_last cs (n / 64) 65536 (128 + n % 64) (by omega)
          (by omega) (by omega) (by omega) (by omega)]
        have e6 : n / 64 * 64 + (128 + n % 64 - 128) = n := by omega
        rw [e6, hofNat]

theorem utf8_foldl_encodeUtf8 (s : List Char) (cs : List Char) :
    (encodeUtf8 s).foldl utf8Byte (some ⟨cs, 0, 0, 0⟩)
      = some ⟨cs ++ s, 0, 0, 0⟩ := by
  induction s generalizing cs with
  | nil => simp [encodeUtf8]
  | cons c s ih =>
    simp only [encodeUtf8, List.flatMap_cons, List.foldl_append]
    rw [utf8Byte_encodeChar c cs]
    show (encodeUtf8 s).foldl utf8Byte (some ⟨cs ++ [c], 0, 0, 0⟩) = _
    rw [ih (cs ++ [c])]
    simp

theorem decodeUtf8_encodeUtf8 (s : List Char) :
    decodeUtf8 (encodeUtf8 s) = some s := by
  unfold decodeUtf8
  rw [utf8_foldl_encodeUtf8 s []]
  simp

/-! ## CSV serialization and parsing (for C7 and C9)

Modelled from the spec: CSV parsing and serialization are delegated to the
pandas library (spec §1 "out of scope", §4.1, §4.4, §6).  The writer is
`results.to_csv(index=False)`: header row of column names, comma-separated
fields, `"`-quoting (doubled inner quotes) of any field containing a comma,
quote, or line break, missing cells written as empty fields, each record
terminated by a newline.  The reader is the inverse state machine: quoted
and unquoted fields, doubled quotes, empty field ↔ missing cell. -/

/-- Does a field need quoting (contains separator, quote or line break)? -/
def needsQuote (s : List Char) : Bool :=
  s.any (fun c => c = ',' || c = '"' || c = '\n' || c = '\x0d')

/-- Double every quote character. -/
def escapeQuotes (s : List Char) : List Char :=
  s.flatMap (fun c => if c = '"' then ['"', '"'] else [c])

/-- Minimal quoting of one field's text. -/
def fieldChars (s : List Char) : List Char :=
  if needsQuote s then '"' :: (escapeQuotes s ++ ['"']) else s

/-- The text content a cell contributes to the file: missing → empty. -/
def cellContent : Option String → List Char
  | none => []
  | some s => s.data

/-- One cell as written: the quoted text, an empty field for a missing
cell. -/
def cellField (cell : Option String) : List Char :=
  fieldChars (cellContent cell)

/-- Comma-join a record's fields. -/
def joinComma : List (List Char) → List Char
  | [] => []
  | [f] => f
  | f :: fs => f ++ ',' :: joinComma fs

/-- `to_csv(index=False)`: header record of column names, then one record
per row, each newline-terminated. -/
def writeCsv (t : Table) : List Char :=
  (joinComma (t.cols.map (fun c => fieldChars c.data)) ++ ['\n'])
    ++ t.rows.flatMap (fun r => joinComma (r.map cellField) ++ ['\n'])

/-- Parser mode: outside quotes, inside quotes, or just after a quote
character inside a quoted field (which a second quote turns into a literal
quote). -/
inductive PMode where
  | normal : PMode
  | quoted : PMode
  | quoteSeen : PMode
deriving DecidableEq

structure PState where
  mode : PMode
  cur : List Char
  fields : List (Option String)
  recs : List (List (Option String))
deriving DecidableEq

/-- A completed field: empty text parses as the missing value. -/
def mkField (cur : List Char) : Option String :=
  if cur.isEmpty then none else some (String.mk cur)

/-- One character of CSV parsing. -/
def pstep (st : PState) (c : Char) : PState :=
  match st.mode with
  | .normal =>
    if c = ',' then { st with cur := [], fields := st.fields ++ [mkField st.cur] }
    else if c = '\n' then
      { mode := .normal, cur := [], fields := [],
        recs := st.recs ++ [st.fields ++ [mkField st.cur]] }
    else if c = '"' then { st with mode := .quoted }
    else { st with cur := st.cur ++ [c] }
  | .quoted =>
    if c = '"' then { st with mode := .quoteSeen }
    else { st with cur := st.cur ++ [c] }
  | .quoteSeen =>
    if c = '"' then { st with mode := .quoted, cur := st.cur ++ ['"'] }
    else if c = ',' then
      { st with mode := .normal, cur := [], fields := st.fields ++ [mkField st.cur] }
    else if c = '\n' then
      { mode := .normal, cur := [], fields := [],
        recs := st.recs ++ [st.fields ++ [mkField st.cur]] }
    else { st with mode := .normal, cur := st.cur ++ [c] }

/-- Flush a pending last record (a file not ending in a newline). -/
def pfinal (st : PState) : List (List (Option String)) :=
  if st.mode = .normal ∧ st.cur = [] ∧ st.fields = [] then st.recs
  else st.recs ++ [st.fields ++ [mkField st.cur]]

/-- All records of a character stream. -/
def parseRecords (cs : List Char) : List (List (Option String)) :=
  pfinal (cs.foldl pstep ⟨.normal, [], [], []⟩)

/-- A parsed table: first record is the header (absent header cells read as
empty names), the rest are the data rows, every cell kept as text. -/
def parseTable (cs : List Char) : Table :=
  match parseRecords cs with
  | [] => ⟨[], []⟩
  | header :: rs => ⟨header.map (fun o => o.getD ""), rs⟩

/-- Strip one leading byte-order mark after decoding. -/
def stripBOM (cs : List Char) : List Char :=
  match cs with
  | c :: rest => if c = '﻿' then rest else cs
  | [] => []

inductive LoadError where
  | decodeError : LoadError
deriving DecidableEq

/-- `load_single_file` from the source: try the primary `utf-8` decoding
and parse; on a `UnicodeDecodeError` fall back to `latin1` (which accepts
every byte) and parse that.  All cells are read as text (`dtype=str`). -/
def load_single_file (bs : List Nat) : Except LoadError Table :=
  match decodeUtf8 bs with
  | some cs => .ok (parseTable (stripBOM cs))
  | none => .ok (parseTable (stripBOM (decodeLatin1 bs)))

/-- `results.to_csv(index=False).encode('utf-8-sig')`: the UTF-8 bytes of
the serialized table, preceded by the three-byte byte-order mark. -/
def export_csv (t : Table) : List Nat :=
  [239, 187, 191] ++ encodeUtf8 (writeCsv t)

/-! ## CSV round-trip lemmas -/

theorem pstep_normal_comma (cur : List Char) (fl : List (Option String))
    (recs : List (List (Option String))) :
    pstep ⟨.normal, cur, fl, recs⟩ ',' = ⟨.normal, [], fl ++ [mkField cur], recs⟩ := by
  simp [pstep]

theorem pstep_normal_newline (cur : List Char) (fl : List (Option String))
    (recs : List (List (Option String))) :
    pstep ⟨.normal, cur, fl, recs⟩ '\n'
      = ⟨.normal, [], [], recs ++ [fl ++ [mkField cur]]⟩ := by
  simp [pstep]

theorem pstep_normal_quote (cur : List Char) (fl : List (Option String))
    (recs : List (List (Option String))) :
    pstep ⟨.normal, cur, fl, recs⟩ '"' = ⟨.quoted, cur, fl, recs⟩ := by
  simp [pstep]

theorem pstep_normal_other (c : Char) (h1 : ¬c = ',') (h2 : ¬c = '\n')
    (h3 : ¬c = '"') (cur : List Char) (fl : List (Option String))
    (recs : List (List (Option String))) :
    pstep ⟨.normal, cur, fl, recs⟩ c = ⟨.normal, cur ++ [c], fl, recs⟩ := by
  simp [pstep, h1, h2, h3]

theorem pstep_quoted_quote (cur : List Char) (fl : List (Option String))
    (recs : List (List (Option String))) :
    pstep ⟨.quoted, cur, fl, recs⟩ '"' = ⟨.quoteSeen, cur, fl, recs⟩ := by
  simp [pstep]

theorem pstep_quoted_other (c : Char) (h : ¬c = '"') (cur : List Char)
    (fl : List (Option String)) (recs : List (List (Option String))) :
    pstep ⟨.quoted, cur, fl, recs⟩ c = ⟨.quoted, cur ++ [c], fl, recs⟩ := by
  simp [pstep, h]

theorem pstep_quoteSeen_quote (cur : List Char) (fl : List (Option String))
    (recs : List (List (Option String))) :
    pstep ⟨.quoteSeen, cur, fl, recs⟩ '"' = ⟨.quoted, cur ++ ['"'], fl, recs⟩ := by
  simp [pstep]

theorem pstep_quoteSeen_comma (cur : List Char) (fl : List (Option String))
    (recs : List (List (Option String))) :
    pstep ⟨.quoteSeen, cur, fl, recs⟩ ','
      = ⟨.normal, [], fl ++ [mkField cur], recs⟩ := by
  simp [pstep]

theorem pstep_quoteSeen_newline (cur : List Char) (fl : List (Option String))
    (recs : List (List (Option String))) :
    pstep ⟨.quoteSeen, cur, fl, recs⟩ '\n'
      = ⟨.normal, [], [], recs ++ [fl ++ [mkField cur]]⟩ := by
  simp [pstep]

theorem not_special_of_needsQuote_false (f : List Char)
    (h : needsQuote f = false) :
    ∀ c ∈ f, ¬c = ',' ∧ ¬c = '\n' ∧ ¬c = '"' := by
  intro c hc
  rw [needsQuote, List.any_eq_false] at h
  have h3 := h c hc
  simp only [Bool.or_eq_true, decide_eq_true_eq, not_or] at h3
  exact ⟨h3.1.1.1, h3.1.2, h3.1.1.2⟩

theorem foldl_pstep_normal_chars (s : List Char)
    (hs : ∀ c ∈ s, ¬c = ',' ∧ ¬c = '\n' ∧ ¬c = '"') (cur : List Char)
    (fl : List (Option String)) (recs : List (List (Option String))) :
    s.foldl pstep ⟨.normal, cur, fl, recs⟩ = ⟨.normal, cur ++ s, fl, recs⟩ := by
  induction s generalizing cur with
  | nil => simp
  | cons c cs ih =>
    obtain ⟨h1, h2, h3⟩ := hs c (List.mem_cons_self _ _)
    rw [List.foldl_cons, pstep_normal_other c h1 h2 h3,
      ih (fun d hd => hs d (List.mem_cons_of_mem _ hd)) (cur ++ [c])]
    simp

theorem foldl_pstep_quoted_escape (s : List Char) (cur : List Char)
    (fl : List (Option String)) (recs : List (List (Option String))) :
    (escapeQuotes s).foldl pstep ⟨.quoted, cur, fl, recs⟩
      = ⟨.quoted, cur ++ s, fl, recs⟩ := by
  induction s generalizing cur with
  | nil => simp [escapeQuotes]
  | cons c cs ih =>
    have hsplit : escapeQuotes (c :: cs)
        = (if c = '"' then ['"', '"'] else [c]) ++ escapeQuotes cs := by
      simp [escapeQuotes]
    rw [hsplit, List.foldl_append]
    by_cases hc : c = '"'
    · subst hc
      rw [if_pos rfl]
      have h2 : (['"', '"'].foldl pstep ⟨.quoted, cur, fl, recs⟩)
          = ⟨.quoted, cur ++ ['"'], fl, recs⟩ := by
        rw [List.foldl_cons, pstep_quoted_quote, List.foldl_cons,
          pstep_quoteSeen_quote, List.foldl_nil]
      rw [h2, ih (cur ++ ['"'])]
      simp
    · rw [if_neg hc, List.foldl_cons, pstep_quoted_other c hc, List.foldl_nil,
        ih (cur ++ [c])]
      simp

theorem foldl_field_comma (f : List Char) (fl : List (Option String))
    (recs : List (List (Option String))) :
    (fieldChars f ++ [',']).foldl pstep ⟨.normal, [], fl, recs⟩
      = ⟨.normal, [], fl ++ [mkField f], recs⟩ := by
  by_cases hq : needsQuote f
  · rw [fieldChars, if_pos hq]
    have hshape : ('"' :: (escapeQuotes f ++ ['"'])) ++ [',']
        = '"' :: (escapeQuotes f ++ ['"', ',']) := by simp
    rw [hshape, List.foldl_cons, pstep_normal_quote, List.foldl_append,
      foldl_pstep_quoted_escape f [] fl recs]
    simp only [List.nil_append]
    rw [List.foldl_cons, pstep_quoted_quote, List.foldl_cons,
      pstep_quoteSeen_comma, List.foldl_nil]
  · have hq' : needsQuote f = false := by simpa using hq
    rw [fieldChars, if_neg hq, List.foldl_append,
      foldl_pstep_normal_chars f (not_special_of_needsQuote_false f hq') [] fl recs]
    simp only [List.nil_append]
    rw [List.foldl_cons, pstep_normal_comma, List.foldl_nil]

theorem foldl_field_newline (f : List Char) (fl : List (Option String))
    (recs : List (List (Option String))) :
    (fieldChars f ++ ['\n']).foldl pstep ⟨.normal, [], fl, recs⟩
      = ⟨.normal, [], [], recs ++ [fl ++ [mkField f]]⟩ := by
  by_cases hq : needsQuote f
  · rw [fieldChars, if_pos hq]
    have hshape : ('"' :: (escapeQuotes f ++ ['"'])) ++ ['\n']
        = '"' :: (escapeQuotes f ++ ['"', '\n']) := by simp
    rw [hshape, List.foldl_cons, pstep_normal_quote, List.foldl_append,
      foldl_pstep_quoted_escape f [] fl recs]
    simp only [List.nil_append]
    rw [List.foldl_cons, pstep_quoted_quote, List.foldl_cons,
      pstep_quoteSeen_newline, List.foldl_nil]
  · have hq' : needsQuote f = false := by simpa using hq
    rw [fieldChars, if_neg hq, List.foldl_append,
      foldl_pstep_normal_chars f (not_special_of_needsQuote_false f hq') [] fl recs]
    simp only [List.nil_append]
    rw [List.foldl_cons, pstep_normal_newline, List.foldl_nil]

theorem foldl_record (contents : List (List Char)) (hne : contents ≠ [])
    (fl : List (Option String)) (recs : List (List (Option String))) :
    (joinComma (contents.map fieldChars) ++ ['\n']).foldl pstep
        ⟨.normal, [], fl, recs⟩
      = ⟨.normal, [], [], recs ++ [fl ++ contents.map mkField]⟩ := by
  induction contents generalizing fl with
  | nil => exact absurd rfl hne
  | cons f rest ih =>
    cases rest with
    | nil =>
      simp only [List.map_cons, List.map_nil, joinComma]
      rw [foldl_field_newline f fl recs]
    | cons g rest' =>
      simp only [List.map_cons, joinComma]
      have hshape : (fieldChars f ++ ',' :: joinComma
            (fieldChars g :: List.map fieldChars rest')) ++ ['\n']
          = (fieldChars f ++ [','])
            ++ (joinComma (fieldChars g :: List.map fieldChars rest')
              ++ ['\n']) := by
        simp
      rw [hshape, List.foldl_append, foldl_field_comma f fl recs]
      have hrec := ih (by simp) (fl ++ [mkField f])
      simp only [List.map_cons] at hrec
      rw [hrec]
      simp

theorem foldl_rows (rows : List (List (List Char)))
    (hne : ∀ r ∈ rows, r ≠ []) (recs : List (List (Option String))) :
    (rows.flatMap (fun r => joinComma (r.map fieldChars) ++ ['\n'])).foldl
        pstep ⟨.normal, [], [], recs⟩
      = ⟨.normal, [], [], recs ++ rows.map (fun r => r.map mkField)⟩ := by
  induction rows generalizing recs with
  | nil => simp
  | cons r rest ih =>
    rw [List.flatMap_cons, List.foldl_append,
      foldl_record r (hne r (List.mem_cons_self _ _)) [] recs,
      ih (fun r' hr' => hne r' (List.mem_cons_of_mem _ hr'))]
    simp

theorem parseRecords_writeCsv (t : Table) (hcols : t.cols ≠ [])
    (hrows : ∀ r ∈ t.rows, r ≠ []) :
    parseRecords (writeCsv t)
      = (t.cols.map (fun c => mkField c.data))
        :: t.rows.map (fun r => r.map (fun cell => mkField (cellContent cell))) := by
  unfold parseRecords writeCsv
  rw [List.foldl_append]
  have hhdr : t.cols.map (fun c => fieldChars c.data)
      = (t.cols.map String.data).map fieldChars := by
    rw [List.map_map]
    rfl
  have hcols' : t.cols.map String.data ≠ [] := by
    simpa using hcols
  rw [hhdr, foldl_record (t.cols.map String.data) hcols' [] []]
  have hrw : t.rows.flatMap (fun r => joinComma (r.map cellField) ++ ['\n'])
      = (t.rows.map (fun r => r.map cellContent)).flatMap
          (fun r => joinComma (r.map fieldChars) ++ ['\n']) := by
    rw [List.flatMap_map]
    refine List.flatMap_congr ?_
    intro r _
    rw [List.map_map]
    rfl
  have hne' : ∀ r ∈ t.rows.map (fun r => r.map cellContent), r ≠ [] := by
    intro r hr
    obtain ⟨r', hr', rfl⟩ := List.mem_map.mp hr
    simpa using hrows r' hr'
  rw [hrw, foldl_rows _ hne']
  unfold pfinal
  rw [if_pos ⟨rfl, rfl, rfl⟩]
  simp [Function.comp_def]

theorem mkField_cellContent (cell : Option String) (h : cell ≠ some "") :
    mkField (cellContent cell) = cell := by
  match cell with
  | none => rfl
  | some ⟨[]⟩ => exact absurd rfl h
  | some ⟨c :: cs⟩ => rfl

theorem mkField_data_getD (c : String) : (mkField c.data).getD "" = c := by
  match c with
  | ⟨[]⟩ => rfl
  | ⟨a :: as⟩ => rfl

/-- **C7.** Table-load contract: decoding is attempted with UTF-8 first (a
successful UTF-8 decode is what gets parsed), Latin-1 is the fallback when
UTF-8 fails, and since the Latin-1 fallback accepts every byte the load
never surfaces a `DecodeError` — it fails only if both encodings fail, which
cannot happen.  Every cell is loaded as text: the parse keeps field text
verbatim, so `"007"` keeps its leading zeros (last conjunct). -/
theorem C7_load_decode_fallback (bs : List Nat) :
    (∀ cs, decodeUtf8 bs = some cs →
        load_single_file bs = .ok (parseTable (stripBOM cs)))
      ∧ (decodeUtf8 bs = none →
          load_single_file bs = .ok (parseTable (stripBOM (decodeLatin1 bs))))
      ∧ (∀ e, load_single_file bs ≠ .error e)
      ∧ load_single_file (encodeUtf8 "A\n007".data)
          = .ok ⟨["A"], [[some "007"]]⟩ := by
  refine ⟨?_, ?_, ?_, by rfl⟩
  · intro cs h
    unfold load_single_file
    rw [h]
  · intro h
    unfold load_single_file
    rw [h]
  · intro e
    unfold load_single_file
    cases hd : decodeUtf8 bs <;> simp

/-- Witness for C7: a valid UTF-8 stream takes the primary branch, and the
invalid byte `255` takes the Latin-1 fallback branch. -/
theorem C7_load_decode_fallback_witness :
    load_single_file (encodeUtf8 "A\nx".data)
        = .ok (parseTable (stripBOM "A\nx".data))
      ∧ load_single_file [255]
        = .ok (parseTable (stripBOM (decodeLatin1 [255]))) :=
  ⟨(C7_load_decode_fallback (encodeUtf8 "A\nx".data)).1 "A\nx".data
      (by rfl),
    (C7_load_decode_fallback [255]).2.1 (by rfl)⟩

/-- **C9.** Export round-trip: exporting the full row subset of a loaded
table yields the UTF-8 bytes of its CSV serialization preceded by the
three-byte byte-order mark (whose first record is the header of original
column names), and loading those bytes back yields the identical table —
same column names, same cell texts.  The hypotheses are the loader's
invariants: a loaded table has at least one column, no empty row, and no
cell holding empty text (an empty field loads as the missing value). -/
theorem C9_export_roundtrip (t : Table) (hcols : t.cols ≠ [])
    (hrows : ∀ r ∈ t.rows, r ≠ [])
    (hcells : ∀ r ∈ t.rows, ∀ cell ∈ r, cell ≠ some "") :
    (export_csv t).take 3 = [239, 187, 191]
      ∧ export_csv t = [239, 187, 191] ++ encodeUtf8 (writeCsv t)
      ∧ ((parseRecords (writeCsv t)).headD []).map (fun o => o.getD "")
          = t.cols
      ∧ load_single_file (export_csv t) = .ok t := by
  have hparse := parseRecords_writeCsv t hcols hrows
  have hc : (t.cols.map (fun c => mkField c.data)).map (fun o => o.getD "")
      = t.cols := by
    rw [List.map_map]
    have : ∀ c ∈ t.cols, (mkField c.data).getD "" = c :=
      fun c _ => mkField_data_getD c
    calc t.cols.map ((fun o => o.getD "") ∘ (fun c => mkField c.data))
        = t.cols.map (fun c => c) := List.map_congr_left this
      _ = t.cols := List.map_id' t.cols
  have hr : t.rows.map (fun r => r.map (fun cell => mkField (cellContent cell)))
      = t.rows := by
    have : ∀ r ∈ t.rows,
        r.map (fun cell => mkField (cellContent cell)) = r := by
      intro r hrm
      calc r.map (fun cell => mkField (cellContent cell))
          = r.map (fun cell => cell) :=
            List.map_congr_left (fun cell hcell =>
              mkField_cellContent cell (hcells r hrm cell hcell))
        _ = r := List.map_id' r
    calc t.rows.map (fun r => r.map (fun cell => mkField (cellContent cell)))
        = t.rows.map (fun r => r) := List.map_congr_left this
      _ = t.rows := List.map_id' t.rows
  refine ⟨by simp [export_csv], rfl, ?_, ?_⟩
  · rw [hparse]
    simpa using hc
  · have hbom : export_csv t = encodeUtf8 ('﻿' :: writeCsv t) := by
      show [239, 187, 191] ++ encodeUtf8 (writeCsv t) = _
      have henc : encodeUtf8 ('﻿' :: writeCsv t)
          = encodeChar '﻿' ++ encodeUtf8 (writeCsv t) := by
        simp [encodeUtf8]
      rw [henc]
      rfl
    unfold load_single_file
    rw [hbom, decodeUtf8_encodeUtf8]
    have hstrip : stripBOM ('﻿' :: writeCsv t) = writeCsv t := by
      simp [stripBOM]
    show Except.ok (parseTable (stripBOM ('﻿' :: writeCsv t))) = Except.ok t
    rw [hstrip]
    unfold parseTable
    rw [hparse]
    simp only [hc, hr]

/-- Witness for C9 at a concrete two-row table exercising quoting and a
missing cell. -/
theorem C9_export_roundtrip_witness :
    load_single_file (export_csv ⟨["A"], [[some "x,y"], [none]]⟩)
        = .ok ⟨["A"], [[some "x,y"], [none]]⟩
      ∧ (export_csv ⟨["A"], [[some "x,y"], [none]]⟩).take 3
        = [239, 187, 191] := by
  have h := C9_export_roundtrip ⟨["A"], [[some "x,y"], [none]]⟩ (by decide)
    (by decide) (by decide)
  exact ⟨h.2.2.2, h.1⟩

end VoterId
